import Mathlib

/-!
Formal model of the advanced test-case management page (`TestCasePage.tsx`):
the test-case data model, the model mutation operations, the Mermaid graph
builder, and the Excel / XMind / HTML exporters, together with theorems about
the properties stated in the design document.
-/

namespace TestCaseModel

/-- The `expectedStatus` union type `"成功" | "失败" | "异常"` of a `Step`. -/
inductive ExpectedStatus where
  | success
  | failure
  | exception
  deriving DecidableEq

/-- The string literal a status stands for in the source. -/
def ExpectedStatus.str : ExpectedStatus → String
  | .success => "成功"
  | .failure => "失败"
  | .exception => "异常"

/-- `type Branch = { condition: string; nextStep: number }`. -/
structure Branch where
  condition : String
  nextStep : Nat
  deriving DecidableEq

/-- `type Step` with optional `dependsOn` and optional `branches`. -/
structure Step where
  action : String
  expectedStatus : ExpectedStatus
  expectedValue : String
  dependsOn : Option Nat := none
  branches : Option (List Branch) := none
  deriving DecidableEq

/-- `type TestCase = { id: string; title: string; precondition: string; steps: Step[] }`. -/
structure TestCase where
  id : String
  title : String
  precondition : String
  steps : List Step
  deriving DecidableEq

/-! ### Decimal rendering of numbers

`natToString` models JavaScript number-to-string conversion (as used in the
template literals `` `TC-${n}` ``, `` `S${idx}` ``, `` `步骤 ${idx + 1}` `` …)
for natural numbers: the usual decimal representation. -/

/-- The decimal digit character for `d < 10` (`'0'` has code 48). -/
def digitCharOf (d : Nat) : Char := Char.ofNat (48 + d)

/-- Fuel-driven accumulation of decimal digits, most significant first. -/
def natToStringAux : Nat → Nat → List Char
  | 0, _ => []
  | fuel + 1, n =>
      if n = 0 then [] else natToStringAux fuel (n / 10) ++ [digitCharOf (n % 10)]

/-- Decimal representation of a natural number, modelling JS `${n}`. -/
def natToString (n : Nat) : String :=
  if n = 0 then "0" else (natToStringAux n n).asString

/-- Decimal value of a digit string, a left inverse used to prove that
`natToString` is injective. -/
def chainVal (l : List Char) : Nat :=
  l.foldl (fun acc c => acc * 10 + (c.toNat - 48)) 0

theorem chainVal_append (l : List Char) (c : Char) :
    chainVal (l ++ [c]) = chainVal l * 10 + (c.toNat - 48) := by
  unfold chainVal
  rw [List.foldl_append]
  rfl

theorem digitCharOf_toNat (d : Nat) (h : d < 10) :
    (digitCharOf d).toNat = 48 + d := by
  interval_cases d <;> decide

theorem chainVal_natToStringAux :
    ∀ fuel n, n ≤ fuel → chainVal (natToStringAux fuel n) = n := by
  intro fuel
  induction fuel with
  | zero =>
      intro n hn
      have : n = 0 := Nat.le_zero.mp hn
      subst this
      rfl
  | succ f ih =>
      intro n hn
      by_cases h0 : n = 0
      · subst h0
        simp [natToStringAux, chainVal]
      · have hdiv : n / 10 ≤ f := by
          have h1 : 1 ≤ n := Nat.one_le_iff_ne_zero.mpr h0
          have : n / 10 < n := Nat.div_lt_self h1 (by norm_num)
          omega
        have hrec := ih (n / 10) hdiv
        have hmod : n % 10 < 10 := Nat.mod_lt _ (by norm_num)
        simp only [natToStringAux, h0, if_false]
        rw [chainVal_append, hrec, digitCharOf_toNat _ hmod]
        omega

theorem chainVal_natToString_core (n : Nat) :
    chainVal (natToStringAux n n) = n :=
  chainVal_natToStringAux n n (Nat.le_refl n)

theorem natToString_injective : Function.Injective natToString := by
  intro a b hab
  unfold natToString at hab
  by_cases ha : a = 0 <;> by_cases hb : b = 0
  · omega
  · exfalso
    simp only [ha, if_true, hb, if_false] at hab
    have hdata := congrArg String.toList hab
    rw [List.toList_asString] at hdata
    have hv := chainVal_natToString_core b
    rw [← hdata] at hv
    have : chainVal (String.toList "0") = 0 := by decide
    omega
  · exfalso
    simp only [ha, if_false, hb, if_true] at hab
    have hdata := congrArg String.toList hab
    rw [List.toList_asString] at hdata
    have hv := chainVal_natToString_core a
    rw [hdata] at hv
    have : chainVal (String.toList "0") = 0 := by decide
    omega
  · simp only [ha, if_false, hb, if_false] at hab
    have hdata := congrArg String.toList hab
    rw [List.toList_asString, List.toList_asString] at hdata
    have hva := chainVal_natToString_core a
    have hvb := chainVal_natToString_core b
    rw [hdata] at hva
    omega

/-! ### JavaScript helper semantics -/

/-- `x || y` on strings: the empty string is falsy. -/
def jsOrElse (x y : String) : String := if x = "" then y else x

/-- JavaScript semantics of indexing an array with a *string* key
(`cases[c.id as any]`): the element is found only when the key is the
canonical decimal representation of an in-range index; any other string
(such as `"TC-1"`) yields `undefined`. -/
def jsIndexByString (l : List TestCase) (key : String) : Option TestCase :=
  if key.toList.all Char.isDigit ∧ natToString (chainVal key.toList) = key then
    l.get? (chainVal key.toList)
  else none

/-! ### Model operations

The collection state is the `cases` array of `TestCaseAdvancedPage`; each
operation below is the value passed to `setCases` by the corresponding
handler. -/

/-- `addCase`: appends a new case whose id is `` `TC-${cases.length + 1}` ``. -/
def addCase (cases : List TestCase) (title precondition : String)
    (steps : List Step) : List TestCase :=
  cases ++ [{ id := "TC-" ++ natToString (cases.length + 1),
              title := title, precondition := precondition, steps := steps }]

/-- `saveCase`: with an active editing id, maps over the collection replacing
`title`, `precondition` and `steps` of every case whose id matches; with no
editing id (`!editingId`) it is a no-op. -/
def saveCase (cases : List TestCase) (editingId : Option String)
    (title precondition : String) (steps : List Step) : List TestCase :=
  match editingId with
  | none => cases
  | some eid =>
      cases.map fun c =>
        if c.id = eid then
          { c with title := title, precondition := precondition, steps := steps }
        else c

/-- `deleteCase` (the confirmed path): filters out every case with the id. -/
def deleteCase (cases : List TestCase) (id : String) : List TestCase :=
  cases.filter fun c => c.id ≠ id

/-- A sequence of `addCase` operations, one per `(title, precondition, steps)`
input, applied in order. -/
def addAll (inputs : List (String × String × List Step))
    (cases : List TestCase) : List TestCase :=
  inputs.foldl (fun cs i => addCase cs i.1 i.2.1 i.2.2) cases

/-- Modelled from the spec: `updateCase(id, patch) -> TestCase` "replaces
title/precondition/steps atomically; fails with NotFound if id absent".
The spec-side contract that `saveCase` is compared against. -/
def updateCaseSpec (cases : List TestCase) (eid : String)
    (title precondition : String) (steps : List Step) :
    Except String (List TestCase) :=
  if cases.any fun c => c.id = eid then
    Except.ok (cases.map fun c =>
      if c.id = eid then
        { c with title := title, precondition := precondition, steps := steps }
      else c)
  else Except.error "NotFound"

/-- The startup load: the `useState` initializer reads the storage slot and
runs `if (saved) return JSON.parse(saved); return []`. `JSON.parse` is the
external parser, passed in as `parse`; a string it rejects makes `JSON.parse`
throw a `SyntaxError`, modelled as `Except.error` — there is no `try`/`catch`
around the call. An absent (`none`) or empty (falsy) stored string yields the
empty collection. -/
def loadCases (parse : String → Option (List TestCase))
    (saved : Option String) : Except String (List TestCase) :=
  match saved with
  | none => Except.ok []
  | some s =>
      if s = "" then Except.ok []
      else
        match parse s with
        | some cs => Except.ok cs
        | none => Except.error "SyntaxError"

/-! ### Graph Builder (`generateMermaid`)

The source builds one string with three `forEach` passes over `c.steps`
(node declarations, then edges, then `class` assignments) followed by the
`classDef` footer. Sequential `code += line` accumulation is rendered as
`String.join` over the mapped line lists. The edges of the second pass are
first built structurally (`Edge`, `stepEdges`, `caseEdges`) and then rendered
line by line, in the same order as the source emits them. -/

/-- The style class the nested ternary assigns to a status:
`s.expectedStatus === "成功" ? "success" : s.expectedStatus === "失败" ? "fail" : "exception"`. -/
def classOf : ExpectedStatus → String
  | .success => "success"
  | .failure => "fail"
  | .exception => "exception"

/-- Node declaration line `` `S${idx}["${s.action} | ${s.expectedStatus}"]\n` ``. -/
def nodeLine (idx : Nat) (s : Step) : String :=
  "S" ++ natToString idx ++ "[\"" ++ s.action ++ " | " ++ s.expectedStatus.str ++ "\"]\n"

/-- `class` assignment line `` `class S${idx} ${...}\n` ``. -/
def classLine (idx : Nat) (s : Step) : String :=
  "class S" ++ natToString idx ++ " " ++ classOf s.expectedStatus ++ "\n"

/-- A directed edge of the graph description: either a dependency edge
`d --> i` or a branch edge `i -->|condition| next`. -/
inductive Edge where
  | dep (d i : Nat)
  | branch (i : Nat) (condition : String) (next : Nat)
  deriving DecidableEq

/-- The edges the second pass emits for step `s` at index `idx`: its
dependency edge (if `dependsOn` is set) first, then one branch edge per
branch, in branch order. -/
def stepEdges (idx : Nat) (s : Step) : List Edge :=
  (match s.dependsOn with
   | some d => [Edge.dep d idx]
   | none => []) ++
  (s.branches.getD []).map fun b => Edge.branch idx b.condition b.nextStep

/-- All edges of one case, in emission order: a single pass over the steps,
each step contributing `stepEdges`. -/
def caseEdges (c : TestCase) : List Edge :=
  (c.steps.enum.map fun p => stepEdges p.1 p.2).flatten

/-- Rendering of one edge as a Mermaid line, exactly as the source templates
`` `S${s.dependsOn} --> S${idx}\n` `` and `` `S${idx} -->|${b.condition}| S${b.nextStep}\n` ``. -/
def renderEdge : Edge → String
  | .dep d i => "S" ++ natToString d ++ " --> S" ++ natToString i ++ "\n"
  | .branch i cond next =>
      "S" ++ natToString i ++ " -->|" ++ cond ++ "| S" ++ natToString next ++ "\n"

/-- The node declaration lines, first pass, in step order. -/
def nodeLines (c : TestCase) : List String :=
  c.steps.enum.map fun p => nodeLine p.1 p.2

/-- The `class` assignment lines, third pass, in step order. -/
def classLines (c : TestCase) : List String :=
  c.steps.enum.map fun p => classLine p.1 p.2

/-- The fixed `classDef` footer appended at the end. -/
def mermaidFooter : String :=
  "\nclassDef success fill:#dcfce7,stroke:#22c55e,color:#166534\n" ++
  "classDef fail fill:#fee2e2,stroke:#ef4444,color:#b91c1c\n" ++
  "classDef exception fill:#ffedd5,stroke:#f97316,color:#9a3412\n"

/-- `generateMermaid`: header, node declarations, edges, class assignments,
footer. -/
def generateMermaid (c : TestCase) : String :=
  "graph TD\n" ++
  String.join (nodeLines c) ++
  String.join ((caseEdges c).map renderEdge) ++
  String.join (classLines c) ++
  mermaidFooter

/-- Modelled from the spec: the edge order the design document prescribes —
"edges are emitted in two passes (all dependency edges in step order, then
all branch edges in step order, branches within a step in their own
order)". -/
def specTwoPassEdges (c : TestCase) : List Edge :=
  (c.steps.enum.map fun p =>
    match p.2.dependsOn with
    | some d => [Edge.dep d p.1]
    | none => []).flatten ++
  (c.steps.enum.map fun p =>
    (p.2.branches.getD []).map fun b => Edge.branch p.1 b.condition b.nextStep).flatten

/-! ### Tabular exporter (`exportExcel`)

`exportExcel` builds `rows = cases.map(...)` with the keys `ID` / `标题` /
`前置条件` / `步骤` and hands them to the external spreadsheet library; the
row objects are the exporter's output. -/

/-- One output row; the fields carry the source's `ID`, `标题` (title),
`前置条件` (precondition) and `步骤` (steps) column values. -/
structure ExcelRow where
  id : String
  title : String
  precondition : String
  steps : String
  deriving DecidableEq

/-- One branch summary item `` `[${b.condition} -> 步骤 ${b.nextStep + 1}]` ``. -/
def branchPart (b : Branch) : String :=
  "[" ++ b.condition ++ " -> 步骤 " ++ natToString (b.nextStep + 1) ++ "]"

/-- `` s.branches?.map(...).join(", ") || "" ``. -/
def branchSummary (s : Step) : String :=
  match s.branches with
  | none => ""
  | some bs => jsOrElse (String.intercalate ", " (bs.map branchPart)) ""

/-- One line of the `步骤` column:
`` `步骤 ${idx + 1}: ${s.action} | ${s.expectedStatus} | ${s.expectedValue} ${branchStr}` ``. -/
def stepLine (idx : Nat) (s : Step) : String :=
  "步骤 " ++ natToString (idx + 1) ++ ": " ++ s.action ++ " | " ++
    s.expectedStatus.str ++ " | " ++ s.expectedValue ++ " " ++ branchSummary s

/-- The `步骤` column of one case: the step lines joined with `"\n"`. -/
def stepsColumn (c : TestCase) : String :=
  String.intercalate "\n" (c.steps.enum.map fun p => stepLine p.1 p.2)

/-- The rows of the tabular export, one per case of the collection. -/
def exportExcelRows (cases : List TestCase) : List ExcelRow :=
  cases.map fun c =>
    { id := c.id, title := c.title, precondition := c.precondition,
      steps := stepsColumn c }

/-! ### Outline exporter (`exportXMind`)

The topic tree handed to the xmind library: `RootTopic("测试用例")` with one
child per case, one grandchild per step, and — when a step's `branches` array
is present — one leaf per branch. -/

/-- A topic of the outline document: label, optional note, children. -/
inductive XTopic where
  | node (label : String) (note : Option String) (children : List XTopic)

/-- `` Topic(`分支: ${b.condition} -> 步骤 ${b.nextStep + 1}`) ``. -/
def branchTopic (b : Branch) : XTopic :=
  XTopic.node ("分支: " ++ b.condition ++ " -> 步骤 " ++ natToString (b.nextStep + 1))
    none []

/-- `` Topic(`步骤 ${idx + 1}: ${s.action} [${s.expectedStatus}]`).note(s.expectedValue) ``,
with the branch topics as children when `s.branches` is present. -/
def stepTopic (idx : Nat) (s : Step) : XTopic :=
  XTopic.node
    ("步骤 " ++ natToString (idx + 1) ++ ": " ++ s.action ++ " [" ++
      s.expectedStatus.str ++ "]")
    (some s.expectedValue)
    (match s.branches with
     | some bs => bs.map branchTopic
     | none => [])

/-- `` Topic(`${c.id}: ${c.title}`).note(c.precondition || "").children(...) ``. -/
def caseTopic (c : TestCase) : XTopic :=
  XTopic.node (c.id ++ ": " ++ c.title)
    (some (jsOrElse c.precondition ""))
    (c.steps.enum.map fun p => stepTopic p.1 p.2)

/-- `RootTopic("测试用例").children(cases.map(...))`. -/
def exportXMindRoot (cases : List TestCase) : XTopic :=
  XTopic.node "测试用例" none (cases.map caseTopic)

/-- The depth of a topic tree: 1 for a leaf, one more than the deepest child
otherwise. -/
def XTopic.depth : XTopic → Nat
  | .node _ _ children =>
      1 + (children.attach.map fun t => XTopic.depth t.1).foldr max 0
  termination_by t => sizeOf t
  decreasing_by
    have h := List.sizeOf_lt_of_mem t.2
    simp only [XTopic.node.sizeOf_spec]
    omega

/-- The number of topic levels along one case of the outline document: the
root level plus the depth of the case's topic subtree. -/
def caseDepth (c : TestCase) : Nat := 1 + (caseTopic c).depth

/-! ### Report exporter (`exportHtml`)

The self-contained HTML document. The branch entry resolution is the template
`` `<li>条件: ${b.condition} → 下一步: ${cases[c.id as any]?.steps[b.nextStep]?.action || "未知操作"}</li>` ``:
note that it indexes the `cases` *array* with the case's string `id`
(`jsIndexByString`), not the current case `c`. -/

/-- `` cases[c.id as any]?.steps[b.nextStep]?.action || "未知操作" ``. -/
def resolveBranchAction (cases : List TestCase) (cid : String) (b : Branch) : String :=
  match ((jsIndexByString cases cid).bind fun tc => tc.steps.get? b.nextStep) with
  | some st => jsOrElse st.action "未知操作"
  | none => "未知操作"

/-- One branch list item of the report. -/
def branchLi (cases : List TestCase) (cid : String) (b : Branch) : String :=
  "<li>条件: " ++ b.condition ++ " → 下一步: " ++
    resolveBranchAction cases cid b ++ "</li>"

/-- The nested `<ul>` of a step, present only when
`s.branches && s.branches.length > 0`. -/
def branchesBlock (cases : List TestCase) (cid : String) (s : Step) : String :=
  match s.branches.getD [] with
  | [] => ""
  | bs => "\n<ul>\n" ++ String.join (bs.map fun b => branchLi cases cid b) ++ "\n</ul>\n"

/-- One `<li>` step entry of the report. -/
def stepLi (cases : List TestCase) (cid : String) (s : Step) : String :=
  "\n<li>\n操作: " ++ s.action ++ " → 状态: <span class=\"status-" ++
    classOf s.expectedStatus ++ "\">" ++ s.expectedStatus.str ++
    "</span> → 期望值: " ++ jsOrElse s.expectedValue "无" ++ "\n" ++
    branchesBlock cases cid s ++ "\n</li>\n"

/-- One `.case-card` section of the report. -/
def caseCard (cases : List TestCase) (c : TestCase) : String :=
  "\n<div class=\"case-card\">\n<h2>" ++ c.id ++ ": " ++ c.title ++
    "</h2>\n<p>前置条件: " ++ jsOrElse c.precondition "无" ++ "</p>\n<ol>\n" ++
    String.join (c.steps.map fun s => stepLi cases c.id s) ++
    "\n</ol>\n</div>\n"

/-- The fixed document head of the report, up to the `<h1>` heading. -/
def htmlHead : String :=
  "\n<!DOCTYPE html>\n<html lang=\"zh\">\n<head>\n<meta charset=\"UTF-8\">\n" ++
  "<title>测试用例导出</title>\n<style>\n" ++
  "body \x7b font-family: \"Segoe UI\", Roboto, sans-serif; background: #f3f4f6; margin:0; \x7d\n" ++
  ".case-card \x7b background:#fff; padding:16px; margin:16px; border-radius:12px; box-shadow:0 2px 8px rgba(0,0,0,0.1); \x7d\n" ++
  ".status-success \x7b color:green; font-weight:bold; \x7d\n" ++
  ".status-fail \x7b color:red; font-weight:bold; \x7d\n" ++
  ".status-exception \x7b color:orange; font-weight:bold; \x7d\n" ++
  "ol, ul \x7b padding-left:20px; \x7d\n" ++
  "</style>\n</head>\n<body>\n<h1 style=\"text-align:center;\">测试用例手册</h1>\n"

/-- `exportHtml`: the full report document for a collection. -/
def exportHtml (cases : List TestCase) : String :=
  htmlHead ++ String.join (cases.map fun c => caseCard cases c) ++
    "\n</body>\n</html>\n"

/-- Modelled from the spec: the Report exporter's branch resolution contract —
"each branch entry must resolve and display the target step's action text …
by looking up `nextStep` within the same case's step sequence", with the
"unknown step" placeholder (`未知操作`) when the index does not resolve. -/
def specResolveBranchAction (c : TestCase) (b : Branch) : String :=
  match c.steps.get? b.nextStep with
  | some st => st.action
  | none => "未知操作"

/-! ### Helper lemmas -/

theorem string_append_left_cancel {s a b : String} (h : s ++ a = s ++ b) :
    a = b := by
  cases s with | mk sd =>
  cases a with | mk ad =>
  cases b with | mk bd =>
  simp only [HAppend.hAppend, Append.append, String.append] at h
  injection h with h2
  exact congrArg String.mk (List.append_cancel_left h2)

theorem jsOrElse_empty_right (x : String) : jsOrElse x "" = x := by
  unfold jsOrElse
  split
  · rename_i h
    exact h.symm
  · rfl

theorem tcId_injective :
    Function.Injective fun k : Nat => "TC-" ++ natToString (k + 1) := by
  intro a b h
  have h2 : natToString (a + 1) = natToString (b + 1) :=
    string_append_left_cancel h
  have := natToString_injective h2
  omega

/-- `addAll` only appends: the id column after a run of `addCase` operations. -/
theorem addAll_map_id (inputs : List (String × String × List Step)) :
    ∀ cases : List TestCase,
      (addAll inputs cases).map TestCase.id =
        cases.map TestCase.id ++
          (List.range inputs.length).map
            (fun k => "TC-" ++ natToString (cases.length + k + 1)) := by
  induction inputs with
  | nil => intro cases; simp [addAll]
  | cons i is ih =>
      intro cases
      have step : addAll (i :: is) cases = addAll is (addCase cases i.1 i.2.1 i.2.2) := rfl
      rw [step, ih]
      have hA : (addCase cases i.1 i.2.1 i.2.2).map TestCase.id =
          cases.map TestCase.id ++ ["TC-" ++ natToString (cases.length + 1)] := by
        simp [addCase]
      have hlen : (addCase cases i.1 i.2.1 i.2.2).length = cases.length + 1 := by
        simp [addCase]
      rw [hA, hlen, List.append_assoc]
      congr 1
      rw [show (i :: is).length = is.length + 1 from rfl,
        List.range_succ_eq_map, List.map_cons, List.map_map,
        List.singleton_append]
      congr 1
      apply List.map_congr_left
      intro k _
      simp only [Function.comp_apply]
      congr 2
      omega

/-! Edge-list helpers for the graph builder. -/

/-- The edges of a step suffix starting at index `k`, in emission order:
one pass, each step contributing its `stepEdges`. -/
def edgesOfFrom (k : Nat) : List Step → List Edge
  | [] => []
  | s :: ss => stepEdges k s ++ edgesOfFrom (k + 1) ss

theorem enumFrom_stepEdges_flatten (ss : List Step) :
    ∀ k, ((ss.enumFrom k).map fun p => stepEdges p.1 p.2).flatten = edgesOfFrom k ss := by
  induction ss with
  | nil => intro k; rfl
  | cons s ss ih =>
      intro k
      simp only [List.enumFrom, List.map_cons, List.flatten_cons, edgesOfFrom]
      rw [ih]

theorem caseEdges_eq_edgesOfFrom (c : TestCase) :
    caseEdges c = edgesOfFrom 0 c.steps := by
  unfold caseEdges
  exact enumFrom_stepEdges_flatten c.steps 0

/-- The index of the step an edge is emitted from. -/
def edgeOwner : Edge → Nat
  | .dep _ i => i
  | .branch i _ _ => i

theorem edgeOwner_stepEdges {e : Edge} {k : Nat} {s : Step}
    (h : e ∈ stepEdges k s) : edgeOwner e = k := by
  unfold stepEdges at h
  rcases List.mem_append.mp h with h1 | h2
  · revert h1
    cases s.dependsOn <;> intro h1 <;> simp at h1
    subst h1
    rfl
  · obtain ⟨b, _, hb⟩ := List.mem_map.mp h2
    subst hb
    rfl

theorem edgeOwner_edgesOfFrom {e : Edge} :
    ∀ {ss : List Step} {k : Nat}, e ∈ edgesOfFrom k ss → k ≤ edgeOwner e := by
  intro ss
  induction ss with
  | nil => intro k h; simp [edgesOfFrom] at h
  | cons s ss ih =>
      intro k h
      rcases List.mem_append.mp h with h1 | h2
      · rw [edgeOwner_stepEdges h1]
      · have := ih h2
        omega

theorem count_stepEdges_dep_self (k d : Nat) (s : Step) (hdep : s.dependsOn = some d) :
    (stepEdges k s).count (Edge.dep d k) = 1 := by
  unfold stepEdges
  rw [hdep, List.count_append]
  have h0 : ((s.branches.getD []).map fun b =>
      Edge.branch k b.condition b.nextStep).count (Edge.dep d k) = 0 := by
    apply List.count_eq_zero.mpr
    intro hmem
    obtain ⟨b, _, hb⟩ := List.mem_map.mp hmem
    exact Edge.noConfusion hb
  rw [h0]
  simp

theorem count_stepEdges_other {e : Edge} {k : Nat} {s : Step}
    (h : edgeOwner e ≠ k) : (stepEdges k s).count e = 0 := by
  apply List.count_eq_zero.mpr
  intro hmem
  exact h (edgeOwner_stepEdges hmem)

theorem count_edgesOfFrom_below {e : Edge} :
    ∀ {ss : List Step} {k : Nat}, edgeOwner e < k → (edgesOfFrom k ss).count e = 0 := by
  intro ss
  induction ss with
  | nil => intro k _; rfl
  | cons s ss ih =>
      intro k hk
      unfold edgesOfFrom
      rw [List.count_append, count_stepEdges_other (by omega), ih (by omega)]

theorem count_dep_edgesOfFrom :
    ∀ (ss : List Step) (k i d : Nat) (s : Step),
      ss.get? i = some s → s.dependsOn = some d →
      (edgesOfFrom k ss).count (Edge.dep d (k + i)) = 1 := by
  intro ss
  induction ss with
  | nil => intro k i d s h _; simp at h
  | cons s0 ss ih =>
      intro k i d s hget hdep
      cases i with
      | zero =>
          simp only [List.get?] at hget
          injection hget with hget
          subst hget
          unfold edgesOfFrom
          rw [List.count_append, Nat.add_zero,
            count_stepEdges_dep_self k d s0 hdep,
            count_edgesOfFrom_below (by simp [edgeOwner])]
      | succ j =>
          simp only [List.get?] at hget
          unfold edgesOfFrom
          rw [List.count_append,
            count_stepEdges_other (by simp only [edgeOwner]; omega)]
          have hfinal := ih (k + 1) j d s hget hdep
          have harith : k + (j + 1) = k + 1 + j := by omega
          rw [harith, hfinal]

theorem count_branch_edgesOfFrom :
    ∀ (ss : List Step) (k i : Nat) (s : Step) (b : Branch),
      ss.get? i = some s →
      (edgesOfFrom k ss).count (Edge.branch (k + i) b.condition b.nextStep) =
        (s.branches.getD []).count b := by
  intro ss
  induction ss with
  | nil => intro k i s b h; simp at h
  | cons s0 ss ih =>
      intro k i s b hget
      cases i with
      | zero =>
          simp only [List.get?] at hget
          injection hget with hget
          subst hget
          unfold edgesOfFrom
          rw [List.count_append, Nat.add_zero,
            count_edgesOfFrom_below (by simp [edgeOwner])]
          unfold stepEdges
          rw [List.count_append]
          have h0 : (match s0.dependsOn with
              | some d => [Edge.dep d k]
              | none => []).count (Edge.branch k b.condition b.nextStep) = 0 := by
            cases s0.dependsOn <;> rfl
          rw [h0]
          have hinj : Function.Injective fun b : Branch =>
              Edge.branch k b.condition b.nextStep := by
            intro x y hxy
            injection hxy with _ h1 h2
            cases x; cases y
            simp only at h1 h2
            simp [h1, h2]
          have := List.count_map_of_injective (s0.branches.getD [])
            (fun b : Branch => Edge.branch k b.condition b.nextStep) hinj b
          simpa using this
      | succ j =>
          simp only [List.get?] at hget
          unfold edgesOfFrom
          rw [List.count_append,
            count_stepEdges_other (by simp only [edgeOwner]; omega)]
          have hfinal := ih (k + 1) j s b hget
          have harith : k + (j + 1) = k + 1 + j := by omega
          rw [harith, hfinal, Nat.zero_add]

/-! Depth helpers for the outline document. -/

/-- The children of a topic. -/
def XTopic.children : XTopic → List XTopic
  | .node _ _ cs => cs

theorem XTopic.depth_node (label : String) (note : Option String)
    (cs : List XTopic) :
    (XTopic.node label note cs).depth = 1 + (cs.map XTopic.depth).foldr max 0 := by
  rw [XTopic.depth]
  rw [List.attach_map_coe]

theorem foldr_max_all_one {l : List Nat} (hne : l ≠ [])
    (hall : ∀ x ∈ l, x = 1) : l.foldr max 0 = 1 := by
  induction l with
  | nil => exact absurd rfl hne
  | cons a l ih =>
      have ha : a = 1 := hall a (List.mem_cons_self a l)
      cases l with
      | nil => simp [ha]
      | cons b l2 =>
          have := ih (by simp) (fun x hx => hall x (List.mem_cons_of_mem a hx))
          simp only [List.foldr_cons] at this ⊢
          rw [this, ha]
          simp

theorem foldr_max_le {l : List Nat} {m : Nat} (h : ∀ x ∈ l, x ≤ m) :
    l.foldr max 0 ≤ m := by
  induction l with
  | nil => simp
  | cons a l ih =>
      simp only [List.foldr_cons]
      have := ih fun x hx => h x (List.mem_cons_of_mem a hx)
      have ha := h a (List.mem_cons_self a l)
      omega

theorem le_foldr_max {l : List Nat} {x : Nat} (h : x ∈ l) :
    x ≤ l.foldr max 0 := by
  induction l with
  | nil => simp at h
  | cons a l ih =>
      simp only [List.foldr_cons]
      rcases List.mem_cons.mp h with h1 | h2
      · omega
      · have := ih h2
        omega

theorem branchTopic_depth (b : Branch) : (branchTopic b).depth = 1 := by
  rw [branchTopic, XTopic.depth_node]
  rfl

theorem stepTopic_depth_of_no_branches {idx : Nat} {s : Step}
    (h : s.branches.getD [] = []) : (stepTopic idx s).depth = 1 := by
  rw [stepTopic, XTopic.depth_node]
  cases hb : s.branches with
  | none => rfl
  | some bs =>
      rw [hb] at h
      simp only [Option.getD] at h
      subst h
      rfl

theorem stepTopic_depth_of_branches {idx : Nat} {s : Step}
    (h : s.branches.getD [] ≠ []) : (stepTopic idx s).depth = 2 := by
  rw [stepTopic, XTopic.depth_node]
  cases hb : s.branches with
  | none => rw [hb] at h; simp at h
  | some bs =>
      rw [hb] at h
      simp only [Option.getD] at h
      simp only
      have hmax : ((bs.map branchTopic).map XTopic.depth).foldr max 0 = 1 := by
        apply foldr_max_all_one
        · simp [h]
        · intro x hx
          simp only [List.map_map, List.mem_map] at hx
          obtain ⟨b, _, hbx⟩ := hx
          rw [← hbx]
          exact branchTopic_depth b
      rw [hmax]

theorem stepTopic_depth_le {idx : Nat} {s : Step} :
    (stepTopic idx s).depth ≤ 2 := by
  by_cases h : s.branches.getD [] = []
  · rw [stepTopic_depth_of_no_branches h]; omega
  · rw [stepTopic_depth_of_branches h]

theorem caseTopic_depth_of_no_steps {c : TestCase} (h : c.steps = []) :
    (caseTopic c).depth = 1 := by
  rw [caseTopic, XTopic.depth_node, h]
  rfl

theorem caseTopic_depth_of_no_branches {c : TestCase} (hne : c.steps ≠ [])
    (hall : ∀ s ∈ c.steps, s.branches.getD [] = []) :
    (caseTopic c).depth = 2 := by
  rw [caseTopic, XTopic.depth_node]
  have hmax : ((c.steps.enum.map fun p => stepTopic p.1 p.2).map XTopic.depth).foldr max 0 = 1 := by
    apply foldr_max_all_one
    · simp [hne]
    · intro x hx
      simp only [List.map_map, List.mem_map] at hx
      obtain ⟨p, hp, hpx⟩ := hx
      rw [← hpx]
      exact stepTopic_depth_of_no_branches (hall p.2 (List.snd_mem_of_mem_enum hp))
  rw [hmax]

theorem caseTopic_depth_of_branch {c : TestCase} {s : Step}
    (hs : s ∈ c.steps) (hbr : s.branches.getD [] ≠ []) :
    (caseTopic c).depth = 3 := by
  rw [caseTopic, XTopic.depth_node]
  have hmax : ((c.steps.enum.map fun p => stepTopic p.1 p.2).map XTopic.depth).foldr max 0 = 2 := by
    obtain ⟨i, hi⟩ := List.mem_iff_get.mp hs
    have hmem : (2 : Nat) ∈ (c.steps.enum.map fun p => stepTopic p.1 p.2).map XTopic.depth := by
      simp only [List.map_map, List.mem_map]
      refine ⟨((i : Nat), s), ?_, ?_⟩
      · have hg : c.steps.get? (i : Nat) = some s := by
          rw [List.get?_eq_get i.isLt]
          exact congrArg some hi
        have henum : c.steps.enum.get? (i : Nat) = some ((i : Nat), s) := by
          rw [List.get?_eq_getElem?] at hg ⊢
          rw [List.getElem?_enum, hg]
          rfl
        exact List.get?_mem henum
      · exact stepTopic_depth_of_branches hbr
    have hle : ∀ x ∈ (c.steps.enum.map fun p => stepTopic p.1 p.2).map XTopic.depth, x ≤ 2 := by
      intro x hx
      simp only [List.map_map, List.mem_map] at hx
      obtain ⟨p, _, hpx⟩ := hx
      rw [← hpx]
      exact stepTopic_depth_le
    have h1 := le_foldr_max hmem
    have h2 := foldr_max_le hle
    omega
  rw [hmax]

/-! ### Claim theorems -/

/-- A collection on which the report's branch entry should resolve: one case
whose second step has a branch pointing at the first step (`login`), a valid
index. -/
def reportCase : TestCase :=
  { id := "TC-1", title := "Login", precondition := "pre",
    steps := [{ action := "login", expectedStatus := .success, expectedValue := "ok" },
              { action := "submit", expectedStatus := .success, expectedValue := "done",
                branches := some [{ condition := "ok", nextStep := 0 }] }] }

/-- Claim C1: the report exporter is supposed to display the action text of
the step at `b.nextStep` looked up within the same case's steps. Evaluating
the code at a collection where that lookup should succeed (branch
`nextStep = 0`, target action `login`): the branch entry resolves to the
`未知操作` ("unknown step") placeholder, because the template indexes the
`cases` array with the case's string id, while the spec-mandated in-case
lookup yields `login`. -/
theorem claim_C1_report_branch_resolution :
    resolveBranchAction [reportCase] reportCase.id
        { condition := "ok", nextStep := 0 } = "未知操作" ∧
    specResolveBranchAction reportCase { condition := "ok", nextStep := 0 } = "login" ∧
    branchLi [reportCase] reportCase.id { condition := "ok", nextStep := 0 } =
      "<li>条件: ok → 下一步: 未知操作</li>" := by
  refine ⟨rfl, rfl, rfl⟩

/-- A collection with one case whose second step carries one in-range branch
(`nextStep = 0`) and one out-of-range branch (`nextStep = 5`, only 2 steps). -/
def reportCase2 : TestCase :=
  { id := "TC-1", title := "t", precondition := "p",
    steps := [{ action := "a", expectedStatus := .success, expectedValue := "" },
              { action := "b", expectedStatus := .failure, expectedValue := "v",
                branches := some [{ condition := "valid", nextStep := 0 },
                                  { condition := "stale", nextStep := 5 }] }] }

set_option maxRecDepth 8192 in
/-- Claim C2: with one out-of-range branch (`nextStep = 5`, 2 steps) and one
in-range branch (`nextStep = 0`), the out-of-range entry renders the
placeholder as claimed, but the in-range entry renders the placeholder too —
not the target's action `a` the spec-side resolution produces — so it is not
the case that exactly the out-of-range branch degrades while all other
branches render fully. The export does complete without failure: the full
document, with every case, step and branch entry present, is the literal in
the last conjunct. -/
theorem claim_C2_report_placeholder :
    resolveBranchAction [reportCase2] reportCase2.id
        { condition := "stale", nextStep := 5 } = "未知操作" ∧
    resolveBranchAction [reportCase2] reportCase2.id
        { condition := "valid", nextStep := 0 } = "未知操作" ∧
    specResolveBranchAction reportCase2 { condition := "valid", nextStep := 0 } = "a" ∧
    exportHtml [reportCase2] =
      "\n<!DOCTYPE html>\n<html lang=\"zh\">\n<head>\n<meta charset=\"UTF-8\">\n<title>测试用例导出</title>\n<style>\nbody \x7b font-family: \"Segoe UI\", Roboto, sans-serif; background: #f3f4f6; margin:0; \x7d\n.case-card \x7b background:#fff; padding:16px; margin:16px; border-radius:12px; box-shadow:0 2px 8px rgba(0,0,0,0.1); \x7d\n.status-success \x7b color:green; font-weight:bold; \x7d\n.status-fail \x7b color:red; font-weight:bold; \x7d\n.status-exception \x7b color:orange; font-weight:bold; \x7d\nol, ul \x7b padding-left:20px; \x7d\n</style>\n</head>\n<body>\n<h1 style=\"text-align:center;\">测试用例手册</h1>\n\n<div class=\"case-card\">\n<h2>TC-1: t</h2>\n<p>前置条件: p</p>\n<ol>\n\n<li>\n操作: a → 状态: <span class=\"status-success\">成功</span> → 期望值: 无\n\n</li>\n\n<li>\n操作: b → 状态: <span class=\"status-fail\">失败</span> → 期望值: v\n\n<ul>\n<li>条件: valid → 下一步: 未知操作</li><li>条件: stale → 下一步: 未知操作</li>\n</ul>\n\n</li>\n\n</ol>\n</div>\n\n</body>\n</html>\n" := by
  refine ⟨rfl, rfl, rfl, rfl⟩

/-- Claim C3: evaluating the startup load at a stored string the parser
rejects (`"{"`): the parse failure propagates as a thrown `SyntaxError`
(`Except.error`) instead of recovering to the empty collection — the
`useState` initializer has no `try`/`catch` around `JSON.parse`. -/
theorem claim_C3_startup_load :
    loadCases (fun _ => none) (some "\x7b") = Except.error "SyntaxError" := rfl

/-- Claim C4 (counterexample): create two cases, delete `TC-1`, create again:
the new case gets id `TC-2` — computed from the current length, not from a
creation counter — which collides with the surviving case's id, so the ids
are not unique and a deleted position's id is reassigned. -/
theorem claim_C4_counterexample :
    (addCase (deleteCase (addCase (addCase [] "A" "pa" []) "B" "pb" []) "TC-1")
        "C" "pc" []).map TestCase.id = ["TC-2", "TC-2"] ∧
    ¬ ((addCase (deleteCase (addCase (addCase [] "A" "pa" []) "B" "pb" [])
        "TC-1") "C" "pc" []).map TestCase.id).Nodup := by
  constructor
  · rfl
  · decide

/-- Claim C4 (amended): `addCase` assigns ids as `TC-<size+1>` from the
current collection size, not from a persistent creation counter. For every
sequence consisting only of creations starting from the empty collection the
ids are `TC-1` … `TC-n`, in order and pairwise distinct; after a deletion the
size-based scheme can reassign an id that is still in use or was used by a
deleted case. -/
theorem claim_C4_amended (inputs : List (String × String × List Step)) :
    (addAll inputs []).map TestCase.id =
      (List.range inputs.length).map (fun k => "TC-" ++ natToString (k + 1)) ∧
    ((addAll inputs []).map TestCase.id).Nodup := by
  have h := addAll_map_id inputs []
  simp only [List.map_nil, List.nil_append, List.length_nil] at h
  have h2 : (addAll inputs []).map TestCase.id =
      (List.range inputs.length).map fun k => "TC-" ++ natToString (k + 1) := by
    rw [h]
    apply List.map_congr_left
    intro k _
    congr 2
    omega
  refine ⟨h2, ?_⟩
  rw [h2]
  exact List.Nodup.map tcId_injective (List.nodup_range _)

/-- Witness for the amended C4: two creations from empty give `TC-1`, `TC-2`. -/
theorem claim_C4_amended_witness :
    (addAll [("A", "", []), ("B", "", [])] []).map TestCase.id = ["TC-1", "TC-2"] := by
  have h := (claim_C4_amended [("A", "", []), ("B", "", [])]).1
  rw [h]
  rfl

/-- Claim C5 (counterexample): committing an edit session under an id absent
from the collection leaves the collection unchanged and reports nothing,
while the spec-side `updateCase` contract demands a `NotFound` failure. -/
theorem claim_C5_counterexample :
    saveCase [{ id := "TC-1", title := "A", precondition := "p", steps := [] }]
        (some "TC-9") "t2" "p2" [] =
      [{ id := "TC-1", title := "A", precondition := "p", steps := [] }] ∧
    updateCaseSpec [{ id := "TC-1", title := "A", precondition := "p", steps := [] }]
        "TC-9" "t2" "p2" [] = Except.error "NotFound" := by
  constructor <;> rfl

/-- Claim C5 (amended): `saveCase` replaces the target case's title,
precondition and steps atomically when a case with the editing id exists;
when the id is absent it silently returns the collection unchanged — a no-op,
with no `NotFound` failure. -/
theorem claim_C5_amended (cases : List TestCase) (eid title precondition : String)
    (steps : List Step) :
    ((∀ c ∈ cases, c.id ≠ eid) →
      saveCase cases (some eid) title precondition steps = cases) ∧
    (∀ i c, cases.get? i = some c → c.id = eid →
      (saveCase cases (some eid) title precondition steps).get? i =
        some { c with title := title, precondition := precondition, steps := steps }) := by
  have hsome : saveCase cases (some eid) title precondition steps =
      cases.map fun c =>
        if c.id = eid then
          { c with title := title, precondition := precondition, steps := steps }
        else c := rfl
  constructor
  · intro habs
    rw [hsome]
    have hcong : ∀ c ∈ cases,
        (if c.id = eid then
          { c with title := title, precondition := precondition, steps := steps }
        else c) = id c := by
      intro c hc
      rw [if_neg (habs c hc)]
      rfl
    rw [List.map_congr_left hcong, List.map_id]
  · intro i c hget hid
    rw [hsome]
    simp only [List.get?_eq_getElem?] at hget ⊢
    rw [List.getElem?_map, hget]
    simp only [Option.map_some']
    rw [if_pos hid]

/-- Witness for the amended C5: saving under an absent id is a no-op. -/
theorem claim_C5_amended_witness :
    saveCase [{ id := "TC-1", title := "A", precondition := "p", steps := [] }]
        (some "TC-7") "x" "y" [] =
      [{ id := "TC-1", title := "A", precondition := "p", steps := [] }] := by
  apply (claim_C5_amended _ _ _ _ _).1
  intro c hc
  rw [List.mem_singleton.mp hc]
  decide

/-- Claim C6: the graph description consists of the header, one node
declaration per step in step order, the edges, one `class` assignment per
step in step order, and the footer; the node line for step `i` carries the
step's action and expected status, the class line carries the style class of
its expected status, and the three statuses map to three distinct style
classes. -/
theorem claim_C6_graph_nodes (c : TestCase) :
    generateMermaid c =
      "graph TD\n" ++ String.join (nodeLines c) ++
        String.join ((caseEdges c).map renderEdge) ++
        String.join (classLines c) ++ mermaidFooter ∧
    (nodeLines c).length = c.steps.length ∧
    (classLines c).length = c.steps.length ∧
    (∀ i s, c.steps.get? i = some s →
      (nodeLines c).get? i =
        some ("S" ++ natToString i ++ "[\"" ++ s.action ++ " | " ++
          s.expectedStatus.str ++ "\"]\n")) ∧
    (∀ i s, c.steps.get? i = some s →
      (classLines c).get? i =
        some ("class S" ++ natToString i ++ " " ++ classOf s.expectedStatus ++ "\n")) ∧
    Function.Injective classOf ∧
    classOf .success = "success" ∧ classOf .failure = "fail" ∧
      classOf .exception = "exception" := by
  refine ⟨rfl, ?_, ?_, ?_, ?_, ?_, rfl, rfl, rfl⟩
  · unfold nodeLines
    rw [List.length_map, List.enum_length]
  · unfold classLines
    rw [List.length_map, List.enum_length]
  · intro i s hget
    unfold nodeLines
    simp only [List.get?_eq_getElem?] at hget ⊢
    rw [List.getElem?_map, List.getElem?_enum, hget]
    rfl
  · intro i s hget
    unfold classLines
    simp only [List.get?_eq_getElem?] at hget ⊢
    rw [List.getElem?_map, List.getElem?_enum, hget]
    rfl
  · intro a b h
    cases a <;> cases b <;> revert h <;> decide

/-- Witness for C6 at a one-step case. -/
theorem claim_C6_witness :
    (nodeLines { id := "TC-1", title := "t", precondition := "",
                 steps := [{ action := "login", expectedStatus := .success,
                             expectedValue := "" }] }).get? 0 =
      some "S0[\"login | 成功\"]\n" := by
  have h := (claim_C6_graph_nodes
    { id := "TC-1", title := "t", precondition := "",
      steps := [{ action := "login", expectedStatus := .success,
                  expectedValue := "" }] }).2.2.2.1 0
    { action := "login", expectedStatus := .success, expectedValue := "" } rfl
  exact h

/-- A case whose first step carries a branch and whose second step carries a
dependency: the single-pass emission yields the branch edge before the
dependency edge, the opposite of the spec's two-pass order. -/
def branchFirstCase : TestCase :=
  { id := "TC-1", title := "t", precondition := "",
    steps := [{ action := "a", expectedStatus := .success, expectedValue := "",
                branches := some [{ condition := "x", nextStep := 1 }] },
              { action := "b", expectedStatus := .success, expectedValue := "",
                dependsOn := some 0 }] }

/-- Claim C7 (counterexample): on `branchFirstCase` the emitted edge sequence
is `[branch edge of step 0, dependency edge of step 1]`, while the claimed
two-pass order would put every dependency edge first; the two sequences
differ. -/
theorem claim_C7_counterexample :
    caseEdges branchFirstCase = [Edge.branch 0 "x" 1, Edge.dep 0 1] ∧
    specTwoPassEdges branchFirstCase = [Edge.dep 0 1, Edge.branch 0 "x" 1] ∧
    caseEdges branchFirstCase ≠ specTwoPassEdges branchFirstCase := by
  refine ⟨rfl, rfl, ?_⟩
  decide

/-- Claim C7 (amended): the emitted edge multiset is exactly as claimed — one
dependency edge `d -> i` per step `i` with `dependsOn = d` independent of
branch presence, and one labeled branch edge per branch occurrence of step
`i` — but the edges are emitted in a single pass over the steps in order,
each step contributing its dependency edge (if any) first and then its branch
edges in their own order, not in two separate passes. -/
theorem claim_C7_amended (c : TestCase) :
    caseEdges c = edgesOfFrom 0 c.steps ∧
    (∀ i s, c.steps.get? i = some s →
      stepEdges i s =
        (match s.dependsOn with
         | some d => [Edge.dep d i]
         | none => []) ++
          (s.branches.getD []).map fun b => Edge.branch i b.condition b.nextStep) ∧
    (∀ i s d, c.steps.get? i = some s → s.dependsOn = some d →
      (caseEdges c).count (Edge.dep d i) = 1) ∧
    (∀ i s b, c.steps.get? i = some s →
      (caseEdges c).count (Edge.branch i b.condition b.nextStep) =
        (s.branches.getD []).count b) := by
  refine ⟨caseEdges_eq_edgesOfFrom c, fun i s _ => rfl, ?_, ?_⟩
  · intro i s d hget hdep
    rw [caseEdges_eq_edgesOfFrom]
    have h := count_dep_edgesOfFrom c.steps 0 i d s hget hdep
    simpa using h
  · intro i s b hget
    rw [caseEdges_eq_edgesOfFrom]
    have h := count_branch_edgesOfFrom c.steps 0 i s b hget
    simpa using h

/-- Witness for the amended C7: the dependency edge of `branchFirstCase`'s
second step is emitted exactly once. -/
theorem claim_C7_amended_witness :
    (caseEdges branchFirstCase).count (Edge.dep 0 1) = 1 := by
  exact (claim_C7_amended branchFirstCase).2.2.1 1
    { action := "b", expectedStatus := .success, expectedValue := "",
      dependsOn := some 0 } 0 rfl rfl

/-- Claim C8: the tabular export has one row per case with the id, title,
precondition and steps columns; the steps column is one line per step of the
form `步骤 <1-based index>: <action> | <status> | <expectedValue> <branch
summary>`, where the branch summary is the `", "`-joined list of
`[<condition> -> 步骤 <nextStep 1-based>]` entries and is empty when the step
has no branches. -/
theorem claim_C8_excel_rows (cases : List TestCase) :
    (exportExcelRows cases).length = cases.length ∧
    (∀ i c, cases.get? i = some c →
      (exportExcelRows cases).get? i =
        some { id := c.id, title := c.title, precondition := c.precondition,
               steps := String.intercalate "\n"
                 (c.steps.enum.map fun p => stepLine p.1 p.2) }) ∧
    (∀ idx s, stepLine idx s =
      "步骤 " ++ natToString (idx + 1) ++ ": " ++ s.action ++ " | " ++
        s.expectedStatus.str ++ " | " ++ s.expectedValue ++ " " ++
        branchSummary s) ∧
    (∀ s, s.branches.getD [] = [] → branchSummary s = "") ∧
    (∀ s bs, s.branches = some bs →
      branchSummary s = String.intercalate ", "
        (bs.map fun b =>
          "[" ++ b.condition ++ " -> 步骤 " ++ natToString (b.nextStep + 1) ++ "]")) := by
  refine ⟨?_, ?_, fun idx s => rfl, ?_, ?_⟩
  · unfold exportExcelRows
    rw [List.length_map]
  · intro i c hget
    unfold exportExcelRows
    simp only [List.get?_eq_getElem?] at hget ⊢
    rw [List.getElem?_map, hget]
    rfl
  · intro s h
    unfold branchSummary
    cases hb : s.branches with
    | none => rfl
    | some bs =>
        rw [hb] at h
        simp only [Option.getD_some] at h
        subst h
        rfl
  · intro s bs hb
    unfold branchSummary
    rw [hb]
    exact jsOrElse_empty_right _

/-- The scenario collection of the design document: a `Login` case whose
second step depends on the first and has one `invalid` branch back to it. -/
def loginCase : TestCase :=
  { id := "TC-1", title := "Login", precondition := "user exists",
    steps := [{ action := "enter creds", expectedStatus := .success,
                expectedValue := "" },
              { action := "submit", expectedStatus := .success,
                expectedValue := "redirect", dependsOn := some 0,
                branches := some [{ condition := "invalid", nextStep := 0 }] }] }

/-- Witness for C8 at the design document's scenario collection. -/
theorem claim_C8_witness :
    (exportExcelRows [loginCase]).get? 0 =
      some { id := "TC-1", title := "Login", precondition := "user exists",
             steps := "步骤 1: enter creds | 成功 |  \n步骤 2: submit | 成功 | redirect [invalid -> 步骤 1]" } := by
  have h := (claim_C8_excel_rows [loginCase]).2.1 0 loginCase rfl
  exact h

/-- Claim C9 (counterexample): a case with no steps at all — reachable, since
every step of the form can be deleted before the case is added — has zero
branches anywhere, yet its outline depth is 2 (root, case), not the claimed
3. -/
theorem claim_C9_counterexample :
    caseDepth { id := "TC-1", title := "t", precondition := "p", steps := [] } = 2 := by
  unfold caseDepth
  rw [caseTopic_depth_of_no_steps rfl]

/-- Claim C9 (amended): the outline depth along a case is exactly 4 (root,
case, step, branch) when some step has at least one branch — every branch
rendered as a leaf topic under its step's topic — exactly 3 for a case with
at least one step and no branches anywhere, and 2 for a case with no steps. -/
theorem claim_C9_amended (c : TestCase) :
    ((∃ s ∈ c.steps, s.branches.getD [] ≠ []) → caseDepth c = 4) ∧
    (c.steps ≠ [] → (∀ s ∈ c.steps, s.branches.getD [] = []) → caseDepth c = 3) ∧
    (c.steps = [] → caseDepth c = 2) ∧
    (∀ i s, c.steps.get? i = some s →
      (stepTopic i s).children = (s.branches.getD []).map branchTopic ∧
      ∀ b, (branchTopic b).children = []) := by
  refine ⟨?_, ?_, ?_, ?_⟩
  · rintro ⟨s, hs, hbr⟩
    unfold caseDepth
    rw [caseTopic_depth_of_branch hs hbr]
  · intro hne hall
    unfold caseDepth
    rw [caseTopic_depth_of_no_branches hne hall]
  · intro h
    unfold caseDepth
    rw [caseTopic_depth_of_no_steps h]
  · intro i s _
    refine ⟨?_, fun b => rfl⟩
    cases hb : s.branches with
    | none => simp [stepTopic, XTopic.children, hb]
    | some bs => simp [stepTopic, XTopic.children, hb]

/-- Witness for the amended C9: a one-step case with one branch has outline
depth 4. -/
theorem claim_C9_amended_witness :
    caseDepth { id := "TC-1", title := "t", precondition := "",
                steps := [{ action := "a", expectedStatus := .success,
                            expectedValue := "",
                            branches := some [{ condition := "x", nextStep := 0 }] }] } = 4 := by
  exact (claim_C9_amended _).1
    ⟨{ action := "a", expectedStatus := .success, expectedValue := "",
       branches := some [{ condition := "x", nextStep := 0 }] },
     List.mem_singleton.mpr rfl, by decide⟩

/-- Claim C10: committing an edit session on an id held by exactly one case
preserves the collection's length, replaces only that case's title,
precondition and steps — keeping its id and its position — and leaves every
other position untouched. -/
theorem claim_C10_save_frame (cases : List TestCase) (i : Nat) (c : TestCase)
    (eid title precondition : String) (steps : List Step)
    (hget : cases.get? i = some c) (hid : c.id = eid)
    (huniq : ∀ j d, j ≠ i → cases.get? j = some d → d.id ≠ eid) :
    (saveCase cases (some eid) title precondition steps).length = cases.length ∧
    (saveCase cases (some eid) title precondition steps).get? i =
      some { c with title := title, precondition := precondition, steps := steps } ∧
    (∀ j, j ≠ i → (saveCase cases (some eid) title precondition steps).get? j =
      cases.get? j) ∧
    ({ c with title := title, precondition := precondition, steps := steps }).id = c.id := by
  have hsome : saveCase cases (some eid) title precondition steps =
      cases.map fun d =>
        if d.id = eid then
          { d with title := title, precondition := precondition, steps := steps }
        else d := rfl
  refine ⟨?_, ?_, ?_, rfl⟩
  · rw [hsome, List.length_map]
  · rw [hsome]
    simp only [List.get?_eq_getElem?] at hget ⊢
    rw [List.getElem?_map, hget]
    simp only [Option.map_some']
    rw [if_pos hid]
  · intro j hj
    rw [hsome]
    simp only [List.get?_eq_getElem?]
    rw [List.getElem?_map]
    cases hgj : cases[j]? with
    | none => rfl
    | some d =>
        simp only [Option.map_some']
        rw [if_neg (huniq j d hj (by rw [List.get?_eq_getElem?]; exact hgj))]

/-- Witness for C10: editing the only case of a one-case collection. -/
theorem claim_C10_witness :
    (saveCase [{ id := "TC-1", title := "A", precondition := "p", steps := [] }]
        (some "TC-1") "B" "q" []).get? 0 =
      some { id := "TC-1", title := "B", precondition := "q", steps := [] } := by
  have h := (claim_C10_save_frame
    [{ id := "TC-1", title := "A", precondition := "p", steps := [] }] 0
    { id := "TC-1", title := "A", precondition := "p", steps := [] }
    "TC-1" "B" "q" [] rfl rfl ?huniq).2.1
  · exact h
  · intro j d hj hget
    cases j with
    | zero => exact absurd rfl hj
    | succ n => simp at hget

end TestCaseModel
